import Mathlib

/-!
Shallow embedding of the reconciliation engine in
`src/source/qualities_summary.py` (class `FeedbackSummary`).

Modelling conventions, all derived from the source:

* A table is a list of typed rows, in frame order.  A pandas cell that can
  be missing (`NaN`) is an `Option`; `none` models a null cell.
* The self table has columns `Quality` (string, never null) and `Comment`
  (possibly null).  The others table has `Quality`,
  `Examples, so I can understand` (possibly null) and `Name` (string,
  produced upstream by `str(rev_name).title()`, never null).
* `pd.pivot_table(..., aggfunc="count")` groups by the index column
  (distinct keys, ascending) and counts the non-null values in each group;
  a group whose values are all null is kept with count 0.
* `.fillna(0.0)` applied to the first merge writes the float `0.0` into a
  null self-comment cell; the cell type `SCell` keeps that value distinct
  from every string (`SCell.numZero`).  `.str.len()` on that numeric cell
  yields `NaN`, so both `.str.len() > 0` and `.str.len() == 0` are false
  on it, which `sLenPos` / `sLenZero` reproduce.
* `astype("int16")` on the count column is the numpy C cast: the
  non-negative group count is reduced modulo 2^16 and read back as a
  signed 16-bit value (`wrapInt16`), so a quality with at least 2^15
  counted rows comes out negative.  The merge converts the column to
  float and back to int16 (lines 156-157); int16 values survive that
  round trip unchanged, so the merged count is the same wrapped value,
  or 0 for an unmatched join.
* A raised `ValueError` is modelled as `some msg`; `none` means no raise.
* For `remove_redundancies` a table is a list of rows, each row a list of
  string cells, where position `k` holds the column named `hierarchy[k]`
  (the transform touches only hierarchy columns and identifies them by
  name; the positional relabelling is a bijection).
-/

namespace FeedbackSummary

/-- A merged-frame cell that held the self comment: either a string, or
the numeric `0.0` that `.fillna(0.0)` wrote over a null comment. -/
inductive SCell where
  | str (s : String)
  | numZero
deriving DecidableEq, Repr

/-- One row of the self-assessment table: columns `Quality`, `Comment`. -/
structure SelfRow where
  quality : String
  comment : Option String
deriving DecidableEq, Repr

/-- One row of the others table: columns `Quality`,
`Examples, so I can understand`, `Name`. -/
structure OtherRow where
  quality : String
  comment : Option String
  reviewer : String
deriving DecidableEq, Repr

/-- Python string comparison, `s1 < s2`: lexicographic on Unicode code
points, with a proper prefix sorting first.  `Bool`-valued over the char
lists so that concrete tables evaluate inside the kernel. -/
def charListLt : List Char → List Char → Bool
  | _, [] => false
  | [], _ :: _ => true
  | a :: as, b :: bs =>
    if a.toNat < b.toNat then true
    else if b.toNat < a.toNat then false
    else charListLt as bs

/-- `s1 < s2` on strings, as Python compares them. -/
def strLtB (a b : String) : Bool := charListLt a.data b.data

/-- `s1 <= s2` on strings, as Python compares them. -/
def strLeB (a b : String) : Bool := !(strLtB b a)

/-- Insert a key into an ascending duplicate-free key list, keeping it
ascending and duplicate-free. -/
def insSorted (x : String) : List String → List String
  | [] => [x]
  | y :: ys =>
    if strLtB x y then x :: y :: ys
    else if x = y then y :: ys
    else y :: insSorted x ys

/-- The index of a `pd.pivot_table` call grouped on one column: the
distinct values of that column, ascending. -/
def pivotIndex (l : List String) : List String := l.foldr insSorted []

/-- `astype("int16")` on a non-negative count: reduce modulo 2^16 and
reinterpret as a signed 16-bit value (numpy C cast). -/
def wrapInt16 (n : Nat) : Int :=
  if n % 65536 < 32768 then ((n % 65536 : Nat) : Int)
  else ((n % 65536 : Nat) : Int) - 65536

/-- `count_dataframe`: one row per distinct quality of the others table,
with the count of non-null comment cells in that group
(`pivot_table(..., values=[others_input_comments], index=[quality_name],
aggfunc="count")`), cast to int16 by
`.astype({self.count_name: "int16"})`. -/
def countTable (others : List OtherRow) : List (String × Int) :=
  (pivotIndex (others.map (·.quality))).map
    (fun q => (q, wrapInt16
      (others.countP (fun o => o.quality == q && o.comment.isSome))))

/-- `check_duplicates_in_self_assessment`: the pivot of the self table on
quality counting non-null comments, filtered to counts above one. -/
def dupQualities (self : List SelfRow) : List String :=
  (pivotIndex (self.map (·.quality))).filter
    (fun q => 1 < self.countP (fun s => s.quality == q && s.comment.isSome))

/-- The `ValueError` message raised by
`check_duplicates_in_self_assessment`, or `none` when it returns. -/
def checkDuplicates (self : List SelfRow) : Option String :=
  if 0 < (dupQualities self).length then
    some ((if 1 < (dupQualities self).length then "There are duplicated entries"
           else "There is a duplicated entry")
          ++ " found in the self-assessment: "
          ++ String.intercalate ", " (dupQualities self))
  else none

/-- `check_missing_qualities_from_self_assessment`: distinct qualities of
the others table (pivot on quality counting the never-null `Name` column,
so every distinct quality is kept) that are not in the self quality
column. -/
def missingQualities (self : List SelfRow) (others : List OtherRow) :
    List String :=
  (pivotIndex (others.map (·.quality))).filter
    (fun q => !(self.map (·.quality)).contains q)

/-- The `ValueError` message raised by
`check_missing_qualities_from_self_assessment`, or `none`. -/
def checkMissing (self : List SelfRow) (others : List OtherRow) :
    Option String :=
  if 0 < (missingQualities self others).length then
    some ((if 1 < (missingQualities self others).length
           then "There are qualities missing from"
           else "There is a quality missing from")
          ++ " the self-assessment: "
          ++ String.intercalate ", " (missingQualities self others))
  else none

/-- `__init__`: runs the duplicate check, then the missing-quality check;
`some msg` is the first `ValueError` raised, `none` means the engine was
constructed. -/
def construct (self : List SelfRow) (others : List OtherRow) :
    Option String :=
  match checkDuplicates self with
  | some e => some e
  | none => checkMissing self others

/-- Construction succeeds (neither validation raises). -/
def constructionOk (self : List SelfRow) (others : List OtherRow) : Bool :=
  (construct self others).isNone

/-- The count joined onto a self row by the first left merge: the int16
entry of `count_dataframe` for its quality, or the `fillna(0.0)` zero
when the quality is absent from `count_dataframe` (the float round trip
and the second `astype("int16")` leave both unchanged). -/
def countLookup (others : List OtherRow) (q : String) : Int :=
  match (countTable others).find? (fun p => p.1 == q) with
  | some p => p.2
  | none => 0

/-- The `My Examples` cell after the first merge and its `fillna(0.0)`:
a string comment stays a string, a null comment becomes the numeric 0.0. -/
def myCell : Option String → SCell
  | some t => .str t
  | none => .numZero

/-- One row of the merged frame before/after `.fillna("")`: columns
`Quality`, `My Examples`, `Others Count`, `Name`, `Their Examples`.
`none` in `name` or `theirExamples` is a null cell from an unmatched
left join (or a null others comment). -/
structure MRow where
  quality : String
  myExamples : SCell
  count : Int
  name : Option String
  theirExamples : Option String
deriving DecidableEq, Repr

/-- The rows the second left merge produces for one self row: one row per
others row of the same quality (in others-frame order), or a single row
with null reviewer columns when no others row matches. -/
def fanOut (others : List OtherRow) (s : SelfRow) : List MRow :=
  if (others.filter (fun o => o.quality == s.quality)).isEmpty then
    [⟨s.quality, myCell s.comment, countLookup others s.quality, none, none⟩]
  else
    (others.filter (fun o => o.quality == s.quality)).map
      (fun o => ⟨s.quality, myCell s.comment, countLookup others s.quality,
                 some o.reviewer, o.comment⟩)

/-- The merged frame after both left merges, before `.fillna("")` and the
sort: self rows in frame order, each fanned out over its others rows. -/
def mergedRaw (self : List SelfRow) (others : List OtherRow) : List MRow :=
  self.flatMap (fanOut others)

/-- `.fillna("")`: every null cell of the two reviewer columns becomes
the empty string. -/
def fillEmpty (r : MRow) : MRow :=
  ⟨r.quality, r.myExamples, r.count,
   some (r.name.getD ""), some (r.theirExamples.getD "")⟩

/-- The comparison of `sort_values([count, quality, name],
ascending=[False, True, True])`: count descending, then quality
ascending, then reviewer name ascending. -/
def rowLE (a b : MRow) : Bool :=
  decide (b.count < a.count) ||
    (decide (a.count = b.count) &&
      (strLtB a.quality b.quality ||
        (a.quality == b.quality &&
          strLeB (a.name.getD "") (b.name.getD ""))))

/-- `merged_dataframe`: the filled merged frame, sorted by the
`sort_values` key. -/
def mergedRows (self : List SelfRow) (others : List OtherRow) : List MRow :=
  ((mergedRaw self others).map fillEmpty).mergeSort rowLE

/-- `.str.len() > 0` on a `My Examples` cell: false on the numeric cell
(whose string length is `NaN`). -/
def sLenPos : SCell → Bool
  | .str t => 0 < t.length
  | .numZero => false

/-- `.str.len() == 0` on a `My Examples` cell: false on the numeric cell
(whose string length is `NaN`). -/
def sLenZero : SCell → Bool
  | .str t => t.length == 0
  | .numZero => false

/-- `match_dataframe`: merged rows with positive count and positive self
comment length. -/
def matchRows (self : List SelfRow) (others : List OtherRow) : List MRow :=
  (mergedRows self others).filter
    (fun r => decide (0 < r.count) && sLenPos r.myExamples)

/-- `only_me_dataframe`: merged rows with zero count and positive self
comment length. -/
def onlyMeRows (self : List SelfRow) (others : List OtherRow) : List MRow :=
  (mergedRows self others).filter
    (fun r => (r.count == 0) && sLenPos r.myExamples)

/-- `only_others_dataframe`: merged rows with positive count and zero
self comment length. -/
def onlyOthersRows (self : List SelfRow) (others : List OtherRow) :
    List MRow :=
  (mergedRows self others).filter
    (fun r => decide (0 < r.count) && sLenZero r.myExamples)

/-- Column labels of a `pd.merge` output: the left columns followed by
the right columns other than the join key `Quality`. -/
def mergeCols (l r : List String) : List String :=
  l ++ r.filter (fun c => c != "Quality")

/-- The rename of the self comment column after the first merge. -/
def renameComment (cols : List String) : List String :=
  cols.map (fun c => if c = "Comment" then "My Examples" else c)

/-- The column labels of the frame built by `_merge_dataframes` before
projection: self columns joined with the count table, comment renamed,
joined with the projected others columns. -/
def computedCols : List String :=
  mergeCols (renameComment (mergeCols ["Quality", "Comment"]
                                      ["Quality", "Others Count"]))
            ["Quality", "Their Examples", "Name"]

/-- The final projection `[col for col in tobereturned if col in
hierarchy]`: computed columns kept when named in the hierarchy, in the
computed frame order. -/
def mergedColumns (hierarchy : List String) : List String :=
  computedCols.filter (fun c => hierarchy.contains c)

/-- Modelled from the claim wording of C6, for refinement comparison:
the hierarchy names that occur among the computed columns, in hierarchy
order. -/
def specMergedColumns (hierarchy : List String) : List String :=
  hierarchy.filter (fun c => computedCols.contains c)

/-- One pass of the `remove_redundancies` loop body for hierarchy column
`k`: blank the cell in column `k` of every row whose column-`k` value
equals the one in the row directly above and whose hierarchy columns to
the left of `k` are all blank on the current (partially blanked) row;
`np.where` writes the whole column at once, so all comparisons in column
`k` read the pre-pass values. -/
def blankStep (k : Nat) (t : List (List String)) : List (List String) :=
  t.mapIdx (fun i row =>
    if 0 < i ∧ (t.getD (i - 1) []).getD k "" = row.getD k ""
        ∧ ∀ j < k, row.getD j "" = ""
    then row.set k ""
    else row)

/-- `remove_redundancies`: the blanking pass applied to each of the `n`
hierarchy columns, left to right, on a table whose row cells are indexed
by hierarchy position. -/
def removeRedundancies (n : Nat) (t : List (List String)) :
    List (List String) :=
  (List.range n).foldl (fun acc k => blankStep k acc) t

/-- The cell of row `i`, hierarchy column `k` (missing cells read as the
blank string, matching the comparisons the transform performs). -/
def cellAt (t : List (List String)) (i k : Nat) : String :=
  (t.getD i []).getD k ""

/-! ### The string comparison is a strict total order -/

theorem charListLt_nil_right (l : List Char) : charListLt l [] = false := by
  cases l <;> rfl

theorem charListLt_irrefl : ∀ l : List Char, charListLt l l = false
  | [] => rfl
  | a :: as => by
    show (if a.toNat < a.toNat then true
          else if a.toNat < a.toNat then false else charListLt as as) = false
    rw [if_neg (Nat.lt_irrefl _), if_neg (Nat.lt_irrefl _)]
    exact charListLt_irrefl as

theorem charListLt_cons (a b : Char) (as bs : List Char) :
    charListLt (a :: as) (b :: bs)
      = (if a.toNat < b.toNat then true
         else if b.toNat < a.toNat then false else charListLt as bs) := rfl

theorem charListLt_trans :
    ∀ (l1 l2 l3 : List Char), charListLt l1 l2 = true →
      charListLt l2 l3 = true → charListLt l1 l3 = true
  | _, l2, [], _, h23 => by
    rw [charListLt_nil_right l2] at h23
    exact absurd h23 (by simp)
  | [], l2, _ :: _, _, _ => rfl
  | a :: as, l2, c :: cs, h12, h23 => by
    cases l2 with
    | nil =>
      rw [charListLt_nil_right] at h12
      exact absurd h12 (by simp)
    | cons b bs =>
      rw [charListLt_cons] at h12 h23
      rw [charListLt_cons]
      by_cases h1 : a.toNat < b.toNat
      · by_cases h2 : b.toNat < c.toNat
        · rw [if_pos (Nat.lt_trans h1 h2)]
        · by_cases h2' : c.toNat < b.toNat
          · rw [if_neg h2, if_pos h2'] at h23
            exact absurd h23 (by simp)
          · have hbc : b.toNat = c.toNat :=
              Nat.le_antisymm (Nat.le_of_not_lt h2') (Nat.le_of_not_lt h2)
            rw [if_pos (hbc ▸ h1)]
      · by_cases h1' : b.toNat < a.toNat
        · rw [if_neg h1, if_pos h1'] at h12
          exact absurd h12 (by simp)
        · have hab : a.toNat = b.toNat :=
            Nat.le_antisymm (Nat.le_of_not_lt h1') (Nat.le_of_not_lt h1)
          rw [if_neg h1, if_neg h1'] at h12
          by_cases h2 : b.toNat < c.toNat
          · rw [if_pos (hab ▸ h2)]
          · by_cases h2' : c.toNat < b.toNat
            · rw [if_neg h2, if_pos h2'] at h23
              exact absurd h23 (by simp)
            · have hbc : b.toNat = c.toNat :=
                Nat.le_antisymm (Nat.le_of_not_lt h2') (Nat.le_of_not_lt h2)
              rw [if_neg h2, if_neg h2'] at h23
              rw [if_neg (by omega : ¬ a.toNat < c.toNat),
                  if_neg (by omega : ¬ c.toNat < a.toNat)]
              exact charListLt_trans as bs cs h12 h23

theorem charListLt_connex :
    ∀ (l1 l2 : List Char), charListLt l1 l2 = false →
      charListLt l2 l1 = false → l1 = l2
  | [], [], _, _ => rfl
  | [], _ :: _, h12, _ => absurd h12 (by simp [charListLt])
  | _ :: _, [], _, h21 => absurd h21 (by simp [charListLt])
  | a :: as, b :: bs, h12, h21 => by
    rw [charListLt_cons] at h12 h21
    by_cases h1 : a.toNat < b.toNat
    · rw [if_pos h1] at h12
      exact absurd h12 (by simp)
    · by_cases h1' : b.toNat < a.toNat
      · rw [if_pos h1'] at h21
        exact absurd h21 (by simp)
      · have hab : a.toNat = b.toNat :=
          Nat.le_antisymm (Nat.le_of_not_lt h1') (Nat.le_of_not_lt h1)
        have hc : a = b := Char.ext (UInt32.ext hab)
        rw [if_neg h1, if_neg h1'] at h12
        rw [if_neg h1', if_neg h1] at h21
        rw [hc, charListLt_connex as bs h12 h21]

theorem strLtB_irrefl (x : String) : strLtB x x = false :=
  charListLt_irrefl x.data

theorem strLtB_trans {x y z : String} (h1 : strLtB x y = true)
    (h2 : strLtB y z = true) : strLtB x z = true :=
  charListLt_trans x.data y.data z.data h1 h2

theorem strLtB_connex {x y : String} (h1 : strLtB x y = false)
    (h2 : strLtB y x = false) : x = y := by
  have hd : x.data = y.data := charListLt_connex x.data y.data h1 h2
  exact congrArg String.mk hd

theorem strLtB_ne {x y : String} (h : strLtB x y = true) : x ≠ y := by
  rintro rfl
  exact absurd h (by simp [strLtB_irrefl])

theorem mem_insSorted (z x : String) (l : List String) :
    z ∈ insSorted x l ↔ z = x ∨ z ∈ l := by
  induction l with
  | nil => simp [insSorted]
  | cons y ys ih =>
    show z ∈ (if strLtB x y then x :: y :: ys
              else if x = y then y :: ys else y :: insSorted x ys) ↔ _
    by_cases h1 : strLtB x y = true
    · rw [if_pos h1]
      simp only [List.mem_cons]
      try tauto
    · rw [if_neg h1]
      by_cases h2 : x = y
      · rw [if_pos h2]
        subst h2
        simp only [List.mem_cons]
        try tauto
      · rw [if_neg h2]
        simp only [List.mem_cons, ih]
        try tauto

theorem pairwise_insSorted (x : String) (l : List String)
    (h : l.Pairwise (fun u v => strLtB u v = true)) :
    (insSorted x l).Pairwise (fun u v => strLtB u v = true) := by
  induction l with
  | nil => simp [insSorted]
  | cons y ys ih =>
    rcases List.pairwise_cons.mp h with ⟨hy, hys⟩
    show (if strLtB x y then x :: y :: ys
          else if x = y then y :: ys else y :: insSorted x ys).Pairwise _
    by_cases h1 : strLtB x y = true
    · rw [if_pos h1]
      refine List.pairwise_cons.mpr ⟨?_, h⟩
      intro a ha
      rcases List.mem_cons.mp ha with rfl | ha
      · exact h1
      · exact strLtB_trans h1 (hy a ha)
    · rw [if_neg h1]
      by_cases h2 : x = y
      · rw [if_pos h2]
        exact h
      · rw [if_neg h2]
        have hyx : strLtB y x = true := by
          cases h3 : strLtB y x with
          | true => rfl
          | false =>
            exact absurd (strLtB_connex (Bool.not_eq_true _ ▸ h1) h3) h2
        refine List.pairwise_cons.mpr ⟨?_, ih hys⟩
        intro a ha
        rcases (mem_insSorted a x ys).mp ha with rfl | ha
        · exact hyx
        · exact hy a ha

theorem mem_pivotIndex (z : String) (l : List String) :
    z ∈ pivotIndex l ↔ z ∈ l := by
  induction l with
  | nil => simp [pivotIndex]
  | cons y ys ih =>
    show z ∈ insSorted y (pivotIndex ys) ↔ _
    rw [mem_insSorted, ih, List.mem_cons]

theorem pivotIndex_pairwise (l : List String) :
    (pivotIndex l).Pairwise (fun u v => strLtB u v = true) := by
  induction l with
  | nil => exact List.Pairwise.nil
  | cons y ys ih => exact pairwise_insSorted y (pivotIndex ys) ih

theorem pivotIndex_nodup (l : List String) : (pivotIndex l).Nodup :=
  (pivotIndex_pairwise l).imp (fun h => strLtB_ne h)

/-! ### Lemmas about the count aggregation and its lookup -/

theorem find?_self_eq {q : String} :
    ∀ {l : List String}, q ∈ l → l.find? (fun x => x == q) = some q := by
  intro l
  induction l with
  | nil => intro h; exact absurd h (List.not_mem_nil q)
  | cons x xs ih =>
    intro h
    by_cases hx : x = q
    · subst hx
      exact List.find?_cons_of_pos _ (by simp)
    · have hq : q ∈ xs := by
        rcases List.mem_cons.mp h with rfl | h'
        · exact absurd rfl hx
        · exact h'
      rw [List.find?_cons_of_neg _ (by simpa using hx)]
      exact ih hq

theorem find?_self_eq_none {q : String} {l : List String} (h : q ∉ l) :
    l.find? (fun x => x == q) = none := by
  rw [List.find?_eq_none]
  intro x hxl hx
  exact h (by simpa using (beq_iff_eq.mp hx) ▸ hxl)

/-- The count joined onto a self row is exactly the number of others rows
of that quality with a non-null comment — whether the quality is present
in `count_dataframe` (join hit) or absent (null filled by
`fillna(0.0)`). -/
theorem wrapInt16_eq_of_lt {n : Nat} (h : n < 32768) :
    wrapInt16 n = (n : Int) := by
  unfold wrapInt16
  rw [Nat.mod_eq_of_lt (by omega), if_pos h]

theorem wrapInt16_zero : wrapInt16 0 = 0 := by
  rw [wrapInt16_eq_of_lt (by omega)]
  rfl

theorem pos_of_wrapInt16_pos {n : Nat} (h : 0 < wrapInt16 n) : 0 < n := by
  by_contra hc
  have hz : n = 0 := by omega
  rw [hz, wrapInt16_zero] at h
  exact absurd h (by omega)

/-- The count joined onto a self row is the int16 wrap of the number of
others rows of that quality with a non-null comment — whether the
quality is present in `count_dataframe` (join hit) or absent (null
filled by `fillna(0.0)`, and `wrapInt16 0 = 0`). -/
theorem countLookup_eq (others : List OtherRow) (q : String) :
    countLookup others q
      = wrapInt16
          (others.countP (fun o => o.quality == q && o.comment.isSome)) := by
  unfold countLookup countTable
  by_cases h : q ∈ others.map (·.quality)
  · rw [List.find?_map]
    have hm : q ∈ pivotIndex (others.map (·.quality)) :=
      (mem_pivotIndex _ _).mpr h
    have : (pivotIndex (others.map (·.quality))).find?
        (fun x => x == q) = some q := find?_self_eq hm
    simp only [Function.comp_def]
    rw [this]
    rfl
  · have hm : q ∉ pivotIndex (others.map (·.quality)) := fun hc =>
      h ((mem_pivotIndex _ _).mp hc)
    rw [List.find?_map]
    simp only [Function.comp_def]
    rw [find?_self_eq_none hm]
    have hz : others.countP (fun o => o.quality == q && o.comment.isSome) = 0 := by
      rw [List.countP_eq_zero]
      intro o ho hc
      have : o.quality = q := by
        have := (Bool.and_eq_true _ _).mp hc
        exact beq_iff_eq.mp this.1
      exact h (this ▸ List.mem_map_of_mem (·.quality) ho)
    rw [hz, wrapInt16_zero]
    rfl

/-- Below 2^15 others rows the int16 cast cannot wrap and the joined
count is the plain aggregation count. -/
theorem countLookup_eq_small {others : List OtherRow}
    (hsize : others.length < 32768) (q : String) :
    countLookup others q
      = (others.countP (fun o => o.quality == q && o.comment.isSome) : Int) := by
  rw [countLookup_eq]
  exact wrapInt16_eq_of_lt
    (lt_of_le_of_lt (List.countP_le_length _) hsize)

/-! ### Validation characterizations -/

/-- Membership in the duplicate list: exactly the qualities with more
than one self row carrying a non-null comment. -/
theorem mem_dupQualities (self : List SelfRow) (q : String) :
    q ∈ dupQualities self ↔
      q ∈ self.map (·.quality) ∧
        1 < self.countP (fun s => s.quality == q && s.comment.isSome) := by
  unfold dupQualities
  rw [List.mem_filter, mem_pivotIndex]
  simp

/-- Membership in the missing list: exactly the qualities occurring in
the others table and absent from the self quality column. -/
theorem mem_missingQualities (self : List SelfRow) (others : List OtherRow)
    (q : String) :
    q ∈ missingQualities self others ↔
      q ∈ others.map (·.quality) ∧ q ∉ self.map (·.quality) := by
  unfold missingQualities
  rw [List.mem_filter, mem_pivotIndex]
  simp

theorem checkDuplicates_eq_none (self : List SelfRow) :
    checkDuplicates self = none ↔ dupQualities self = [] := by
  unfold checkDuplicates
  by_cases h : 0 < (dupQualities self).length
  · simp only [if_pos h]
    constructor
    · intro hc; exact absurd hc (by simp)
    · intro hc; rw [hc] at h; exact absurd h (by simp)
  · simp only [if_neg h]
    have : dupQualities self = [] := by
      cases hd : dupQualities self with
      | nil => rfl
      | cons a l => rw [hd] at h; exact absurd (by simp) h
    simp [this]

theorem checkMissing_eq_none (self : List SelfRow) (others : List OtherRow) :
    checkMissing self others = none ↔ missingQualities self others = [] := by
  unfold checkMissing
  by_cases h : 0 < (missingQualities self others).length
  · simp only [if_pos h]
    constructor
    · intro hc; exact absurd hc (by simp)
    · intro hc; rw [hc] at h; exact absurd h (by simp)
  · simp only [if_neg h]
    have : missingQualities self others = [] := by
      cases hd : missingQualities self others with
      | nil => rfl
      | cons a l => rw [hd] at h; exact absurd (by simp) h
    simp [this]

/-- A successfully constructed engine passed both checks. -/
theorem constructionOk_iff (self : List SelfRow) (others : List OtherRow) :
    constructionOk self others = true ↔
      dupQualities self = [] ∧ missingQualities self others = [] := by
  unfold constructionOk construct
  cases hd : checkDuplicates self with
  | some e =>
    simp only [Option.isNone_some]
    constructor
    · intro h; exact absurd h (by simp)
    · rintro ⟨h1, _⟩
      rw [(checkDuplicates_eq_none self).mpr h1] at hd
      exact absurd hd (by simp)
  | none =>
    rw [← checkMissing_eq_none self others]
    rw [checkDuplicates_eq_none] at hd
    simp [hd, Option.isNone_iff_eq_none]

/-- Acceptance bounds the number of non-null-comment self rows of every
quality by one. -/
theorem accepted_dup_bound {self : List SelfRow} {others : List OtherRow}
    (h : constructionOk self others = true) (q : String) :
    self.countP (fun s => s.quality == q && s.comment.isSome) ≤ 1 := by
  rcases (constructionOk_iff self others).mp h with ⟨hd, _⟩
  by_contra hc
  push_neg at hc
  have hq : q ∈ self.map (·.quality) := by
    have : 0 < self.countP (fun s => s.quality == q && s.comment.isSome) := by
      omega
    rcases List.countP_pos_iff.mp this with ⟨s, hs, hps⟩
    have := (Bool.and_eq_true _ _).mp hps
    exact (beq_iff_eq.mp this.1) ▸ List.mem_map_of_mem (·.quality) hs
  have : q ∈ dupQualities self :=
    (mem_dupQualities self q).mpr ⟨hq, hc⟩
  rw [hd] at this
  exact absurd this (List.not_mem_nil q)

/-- Acceptance puts every others quality in the self quality column. -/
theorem accepted_no_missing {self : List SelfRow} {others : List OtherRow}
    (h : constructionOk self others = true) {o : OtherRow} (ho : o ∈ others) :
    o.quality ∈ self.map (·.quality) := by
  rcases (constructionOk_iff self others).mp h with ⟨_, hm⟩
  by_contra hc
  have : o.quality ∈ missingQualities self others :=
    (mem_missingQualities self others o.quality).mpr
      ⟨List.mem_map_of_mem (·.quality) ho, hc⟩
  rw [hm] at this
  exact absurd this (List.not_mem_nil _)

/-! ### Lemmas about the sort relation and the merged frame -/

theorem mergedRows_perm (self : List SelfRow) (others : List OtherRow) :
    (mergedRows self others).Perm ((mergedRaw self others).map fillEmpty) :=
  List.mergeSort_perm _ _

theorem mem_mergedRows {self : List SelfRow} {others : List OtherRow}
    {r : MRow} :
    r ∈ mergedRows self others ↔
      ∃ s ∈ self, ∃ r0 ∈ fanOut others s, r = fillEmpty r0 := by
  unfold mergedRows mergedRaw
  simp only [List.mem_mergeSort, List.mem_map, List.mem_flatMap]
  constructor
  · rintro ⟨r0, ⟨s, hs, hr0⟩, rfl⟩
    exact ⟨s, hs, r0, hr0, rfl⟩
  · rintro ⟨s, hs, r0, hr0, rfl⟩
    exact ⟨r0, ⟨s, hs, hr0⟩, rfl⟩

theorem fanOut_fields {others : List OtherRow} {s : SelfRow} {r : MRow}
    (h : r ∈ fanOut others s) :
    r.quality = s.quality ∧ r.myExamples = myCell s.comment ∧
      r.count = countLookup others s.quality := by
  unfold fanOut at h
  by_cases he : (others.filter (fun o => o.quality == s.quality)).isEmpty
  · rw [if_pos he] at h
    rcases List.mem_singleton.mp h with rfl
    exact ⟨rfl, rfl, rfl⟩
  · rw [if_neg he] at h
    rcases List.mem_map.mp h with ⟨o, _, rfl⟩
    exact ⟨rfl, rfl, rfl⟩

theorem fanOut_ne_nil (others : List OtherRow) (s : SelfRow) :
    fanOut others s ≠ [] := by
  unfold fanOut
  by_cases he : (others.filter (fun o => o.quality == s.quality)).isEmpty
  · rw [if_pos he]
    simp
  · rw [if_neg he]
    intro hc
    rw [List.map_eq_nil_iff] at hc
    rw [hc] at he
    exact he (by simp)

theorem fillEmpty_fields (r : MRow) :
    (fillEmpty r).quality = r.quality ∧
      (fillEmpty r).myExamples = r.myExamples ∧
      (fillEmpty r).count = r.count :=
  ⟨rfl, rfl, rfl⟩

theorem mergedRows_covers (self : List SelfRow) (others : List OtherRow) :
    ∀ s ∈ self, ∃ r ∈ mergedRows self others, r.quality = s.quality := by
  intro s hs
  cases hf : fanOut others s with
  | nil => exact absurd hf (fanOut_ne_nil others s)
  | cons r0 rest =>
    refine ⟨fillEmpty r0, mem_mergedRows.mpr ⟨s, hs, r0, by rw [hf]; simp, rfl⟩, ?_⟩
    rw [(fillEmpty_fields r0).1]
    exact (fanOut_fields (by rw [hf]; simp : r0 ∈ fanOut others s)).1

/-- When the filled merged frame is already in sort order, the sort
returns it unchanged (used to evaluate `mergedRows` on concrete
inputs). -/
theorem mergedRows_eq_of_sorted {self : List SelfRow}
    {others : List OtherRow}
    (h : ((mergedRaw self others).map fillEmpty).Pairwise
      (fun a b => rowLE a b = true)) :
    mergedRows self others = (mergedRaw self others).map fillEmpty :=
  List.mergeSort_of_sorted h

theorem mem_map_quality_of_countP {self : List SelfRow} {q : String}
    (h : 0 < self.countP (fun s => s.quality == q && s.comment.isSome)) :
    q ∈ self.map (·.quality) := by
  rcases List.countP_pos_iff.mp h with ⟨s, hs, hps⟩
  have := (Bool.and_eq_true _ _).mp hps
  exact (beq_iff_eq.mp this.1) ▸ List.mem_map_of_mem (·.quality) hs

/-- C2 (amended): `count_dataframe` has exactly one row per distinct
quality occurring in the others table — none dropped, none repeated —
and each count is the number of rows of that quality whose comment cell
is PRESENT (non-null): a present empty-string comment is counted, and a
quality all of whose comment cells are null keeps its row with count
0. -/
theorem c2_count_dataframe (others : List OtherRow) :
    ((countTable others).map Prod.fst).Nodup ∧
    (∀ q, q ∈ (countTable others).map Prod.fst ↔
      ∃ o ∈ others, o.quality = q) ∧
    (∀ p ∈ countTable others,
      p.2 = wrapInt16 (others.countP
        (fun o => o.quality == p.1 && o.comment.isSome)) ∧
      (others.length < 32768 →
        p.2 = (others.countP
          (fun o => o.quality == p.1 && o.comment.isSome) : Int))) := by
  refine ⟨?_, ?_, ?_⟩
  · unfold countTable
    rw [List.map_map]
    have he : (Prod.fst ∘ fun q =>
        (q, wrapInt16
          (others.countP (fun o => o.quality == q && o.comment.isSome))))
        = id := rfl
    rw [he, List.map_id]
    exact pivotIndex_nodup _
  · intro q
    unfold countTable
    rw [List.map_map]
    have he : (Prod.fst ∘ fun q =>
        (q, wrapInt16
          (others.countP (fun o => o.quality == q && o.comment.isSome))))
        = id := rfl
    rw [he, List.map_id, mem_pivotIndex]
    simp [List.mem_map, eq_comm]
  · intro p hp
    unfold countTable at hp
    rcases List.mem_map.mp hp with ⟨q, _, rfl⟩
    refine ⟨rfl, fun hsize => ?_⟩
    exact wrapInt16_eq_of_lt
      (lt_of_le_of_lt (List.countP_le_length _) hsize)

/-- C2 counterexample: one others row whose comment is the blank string.
It has zero rows with a non-empty comment, yet `count_dataframe` keeps
the quality with count 1: pandas `aggfunc="count"` counts every non-null
cell, blank strings included. -/
theorem c2_count_counterexample :
    countTable [⟨"a", some "", "r"⟩] = [("a", 1)] ∧
    ([⟨"a", some "", "r"⟩] : List OtherRow).countP
      (fun o => decide (o.comment.getD "" ≠ "")) = 0 := by
  decide

/-- C6 (amended): the projection keeps exactly the computed columns named
in the hierarchy, but in the computed frame order
`Quality, My Examples, Others Count, Their Examples, Name` — not in the
hierarchy order: the code iterates `for col in tobereturned`, not over
`hierarchy`. -/
theorem c6_columns_projection (hierarchy : List String) :
    mergedColumns hierarchy
      = ["Quality", "My Examples", "Others Count",
         "Their Examples", "Name"].filter (fun c => hierarchy.contains c) ∧
    (∀ c, c ∈ mergedColumns hierarchy ↔
      (c ∈ computedCols ∧ c ∈ hierarchy)) := by
  constructor
  · rfl
  · intro c
    unfold mergedColumns
    rw [List.mem_filter]
    simp

/-- C6 counterexample: with hierarchy `[Others Count, Quality]` the
projected columns come out as `[Quality, Others Count]` — the computed
frame order — not in the hierarchy order the claim requires. -/
theorem c6_columns_counterexample :
    mergedColumns ["Others Count", "Quality"] = ["Quality", "Others Count"] ∧
    specMergedColumns ["Others Count", "Quality"]
      = ["Others Count", "Quality"] ∧
    mergedColumns ["Others Count", "Quality"]
      ≠ specMergedColumns ["Others Count", "Quality"] := by
  decide

/-- C7 (amended): the duplicate check fires exactly when some quality has
more than one self row with a PRESENT (non-null) comment — rows whose
comment cell is null are invisible to the count-based pivot; when it
fires, the message enumerates exactly those qualities (each once), with
singular phrasing for exactly one and plural phrasing for more. -/
theorem c7_duplicate_check (self : List SelfRow) :
    (checkDuplicates self = none ↔
      ∀ q, ¬ 1 < self.countP (fun s => s.quality == q && s.comment.isSome)) ∧
    (∀ q, q ∈ dupQualities self ↔
      1 < self.countP (fun s => s.quality == q && s.comment.isSome)) ∧
    (dupQualities self).Nodup ∧
    (∀ m, checkDuplicates self = some m →
      m = (if 1 < (dupQualities self).length
           then "There are duplicated entries"
           else "There is a duplicated entry")
          ++ " found in the self-assessment: "
          ++ String.intercalate ", " (dupQualities self) ∧
      0 < (dupQualities self).length) := by
  have hmem : ∀ q, q ∈ dupQualities self ↔
      1 < self.countP (fun s => s.quality == q && s.comment.isSome) := by
    intro q
    rw [mem_dupQualities]
    constructor
    · rintro ⟨_, hgt⟩; exact hgt
    · intro hgt
      exact ⟨mem_map_quality_of_countP (by omega), hgt⟩
  refine ⟨?_, hmem, ?_, ?_⟩
  · rw [checkDuplicates_eq_none, List.eq_nil_iff_forall_not_mem]
    constructor
    · intro h q hgt
      exact h q ((hmem q).mpr hgt)
    · intro h q hq
      exact h q ((hmem q).mp hq)
  · unfold dupQualities
    exact (pivotIndex_nodup _).filter _
  · intro m hm
    unfold checkDuplicates at hm
    by_cases hl : 0 < (dupQualities self).length
    · rw [if_pos hl] at hm
      exact ⟨(Option.some.inj hm).symm, hl⟩
    · rw [if_neg hl] at hm
      exact absurd hm (by simp)

/-- C7 counterexample: a self table where the quality `a` appears twice,
both times with a null comment.  The claim requires construction to fail;
the code's pivot counts zero non-null comments for `a` and the check
raises nothing. -/
theorem c7_duplicates_counterexample :
    ([⟨"a", none⟩, ⟨"a", none⟩] : List SelfRow).countP
      (fun s => s.quality == "a") = 2 ∧
    checkDuplicates [⟨"a", none⟩, ⟨"a", none⟩] = none := by
  decide

/-- C8: whenever some others row has a quality absent from the self
quality column, construction raises; the missing-quality check fires
exactly when such a quality exists, its message enumerates exactly the
missing qualities (each once), with singular phrasing for exactly one
and plural phrasing for more, and when every others quality is present
the check raises nothing. -/
theorem c8_missing_quality_check (self : List SelfRow)
    (others : List OtherRow) :
    ((∃ o ∈ others, o.quality ∉ self.map (·.quality)) →
      (construct self others).isSome = true) ∧
    (checkMissing self others = none ↔
      ∀ o ∈ others, o.quality ∈ self.map (·.quality)) ∧
    (∀ q, q ∈ missingQualities self others ↔
      ((∃ o ∈ others, o.quality = q) ∧ q ∉ self.map (·.quality))) ∧
    (missingQualities self others).Nodup ∧
    (∀ m, checkMissing self others = some m →
      m = (if 1 < (missingQualities self others).length
           then "There are qualities missing from"
           else "There is a quality missing from")
          ++ " the self-assessment: "
          ++ String.intercalate ", " (missingQualities self others) ∧
      0 < (missingQualities self others).length) := by
  have hmem : ∀ q, q ∈ missingQualities self others ↔
      ((∃ o ∈ others, o.quality = q) ∧ q ∉ self.map (·.quality)) := by
    intro q
    rw [mem_missingQualities]
    simp [List.mem_map, eq_comm]
  have hnone : checkMissing self others = none ↔
      ∀ o ∈ others, o.quality ∈ self.map (·.quality) := by
    rw [checkMissing_eq_none, List.eq_nil_iff_forall_not_mem]
    constructor
    · intro h o ho
      by_contra hc
      exact h o.quality ((hmem o.quality).mpr ⟨⟨o, ho, rfl⟩, hc⟩)
    · intro h q hq
      rcases (hmem q).mp hq with ⟨⟨o, ho, rfl⟩, hnot⟩
      exact hnot (h o ho)
  refine ⟨?_, hnone, hmem, ?_, ?_⟩
  · rintro ⟨o, ho, hno⟩
    unfold construct
    cases hd : checkDuplicates self with
    | some e => rfl
    | none =>
      cases hcm : checkMissing self others with
      | some m => rfl
      | none => exact absurd (hnone.mp hcm o ho) hno
  · unfold missingQualities
    exact (pivotIndex_nodup _).filter _
  · intro m hm
    unfold checkMissing at hm
    by_cases hl : 0 < (missingQualities self others).length
    · rw [if_pos hl] at hm
      exact ⟨(Option.some.inj hm).symm, hl⟩
    · rw [if_neg hl] at hm
      exact absurd hm (by simp)

/-- C10 (amended): whenever the duplicate check raises (that is, some
quality has more than one PRESENT-comment self row), construction
surfaces exactly that error and the missing-quality check is never
consulted. -/
theorem c10_duplicate_error_first (self : List SelfRow)
    (others : List OtherRow) (e : String)
    (h : checkDuplicates self = some e) :
    construct self others = some e := by
  unfold construct
  rw [h]

/-- Witness for C10: a self table with a genuine duplicate and an others
table with a missing quality; the duplicate error wins. -/
theorem c10_duplicate_error_first_witness :
    checkDuplicates [⟨"a", some "x"⟩, ⟨"a", some "y"⟩]
      = some "There is a duplicated entry found in the self-assessment: a" ∧
    construct [⟨"a", some "x"⟩, ⟨"a", some "y"⟩] [⟨"b", some "z", "r"⟩]
      = some "There is a duplicated entry found in the self-assessment: a" :=
  ⟨by decide, c10_duplicate_error_first _ _ _ (by decide)⟩

/-- C10 counterexample: the self table repeats quality `a` (with null
comments) and the others table references the missing quality `b`.  The
claim requires the duplicate error and never the missing one; the code
misses the duplicate and raises the missing-quality error. -/
theorem c10_order_counterexample :
    ([⟨"a", none⟩, ⟨"a", none⟩] : List SelfRow).countP
      (fun s => s.quality == "a") = 2 ∧
    "b" ∉ ([⟨"a", none⟩, ⟨"a", none⟩] : List SelfRow).map (·.quality) ∧
    construct [⟨"a", none⟩, ⟨"a", none⟩] [⟨"b", some "x", "r"⟩]
      = some "There is a quality missing from the self-assessment: b" := by
  decide

theorem countP_quality_le_one {self : List SelfRow}
    (hnodup : (self.map (·.quality)).Nodup) (q : String) :
    self.countP (fun s => s.quality == q) ≤ 1 := by
  have h1 := List.nodup_iff_count_le_one.mp hnodup q
  rw [List.count_eq_countP, List.countP_map] at h1
  exact h1

/-- Inputs with duplicate-free self qualities and no missing quality are
accepted by construction. -/
theorem constructionOk_of_wf {self : List SelfRow} {others : List OtherRow}
    (hnodup : (self.map (·.quality)).Nodup)
    (hmiss : ∀ o ∈ others, o.quality ∈ self.map (·.quality)) :
    constructionOk self others = true := by
  rw [constructionOk_iff]
  constructor
  · rw [List.eq_nil_iff_forall_not_mem]
    intro q hq
    rcases (mem_dupQualities self q).mp hq with ⟨_, hgt⟩
    have hle : self.countP (fun s => s.quality == q && s.comment.isSome)
        ≤ self.countP (fun s => s.quality == q) :=
      List.countP_mono_left (fun s _ hp => ((Bool.and_eq_true _ _).mp hp).1)
    have := countP_quality_le_one hnodup q
    omega
  · rw [List.eq_nil_iff_forall_not_mem]
    intro q hq
    rcases (mem_missingQualities self others q).mp hq with ⟨hin, hnotin⟩
    rcases List.mem_map.mp hin with ⟨o, ho, rfl⟩
    exact hnotin (hmiss o ho)

/-- C9 (amended): a null self comment raises nothing — construction and
the merge succeed — but the final self comment cell for that quality is
the numeric `0.0` written by the first `fillna(0.0)`, not the empty
string (the later `.fillna("")` finds no null left in that column). -/
theorem c9_missing_comment (self : List SelfRow) (others : List OtherRow)
    (s : SelfRow) (hs : s ∈ self) (hnone : s.comment = none)
    (hnodup : (self.map (·.quality)).Nodup)
    (hmiss : ∀ o ∈ others, o.quality ∈ self.map (·.quality)) :
    constructionOk self others = true ∧
    (∃ r ∈ mergedRows self others, r.quality = s.quality) ∧
    (∀ r ∈ mergedRows self others, r.quality = s.quality →
      r.myExamples = SCell.numZero) := by
  refine ⟨constructionOk_of_wf hnodup hmiss,
    mergedRows_covers self others s hs, ?_⟩
  intro r hr hq
  rcases mem_mergedRows.mp hr with ⟨s', hs', r0, hr0, rfl⟩
  rcases fanOut_fields hr0 with ⟨hq0, hm0, _⟩
  rcases fillEmpty_fields r0 with ⟨fq, fm, _⟩
  have hss : s' = s := by
    apply List.inj_on_of_nodup_map hnodup hs' hs
    show s'.quality = s.quality
    rw [← hq0, ← fq]
    exact hq
  rw [fm, hm0, hss, hnone]
  rfl

/-- Witness for C9 at a one-row self table with a null comment. -/
theorem c9_missing_comment_witness :
    ((⟨"a", none⟩ : SelfRow) ∈ ([⟨"a", none⟩] : List SelfRow) ∧
     (⟨"a", none⟩ : SelfRow).comment = none ∧
     (([⟨"a", none⟩] : List SelfRow).map (·.quality)).Nodup ∧
     (∀ o ∈ ([] : List OtherRow),
        o.quality ∈ ([⟨"a", none⟩] : List SelfRow).map (·.quality))) ∧
    (constructionOk [⟨"a", none⟩] [] = true ∧
     (∃ r ∈ mergedRows [⟨"a", none⟩] [],
        r.quality = (⟨"a", none⟩ : SelfRow).quality) ∧
     (∀ r ∈ mergedRows [⟨"a", none⟩] [],
        r.quality = (⟨"a", none⟩ : SelfRow).quality →
          r.myExamples = SCell.numZero)) :=
  ⟨⟨by decide, by decide, by decide, by decide⟩,
   c9_missing_comment _ _ _ (by decide) (by decide) (by decide) (by decide)⟩

/-- C9 counterexample: self row `a` with a null comment, empty others
table.  Construction succeeds, but the merged self comment cell is the
numeric `0.0` fill, not the empty string the claim demands. -/
theorem c9_numeric_fill_counterexample :
    construct [⟨"a", none⟩] [] = none ∧
    mergedRows [⟨"a", none⟩] []
      = [⟨"a", SCell.numZero, 0, some "", some ""⟩] ∧
    SCell.numZero ≠ SCell.str "" := by
  refine ⟨by decide, ?_, by decide⟩
  rw [mergedRows_eq_of_sorted (by decide)]
  decide

/-! ### Lemmas about the redundancy collapse -/

theorem getD_set_self_str : ∀ (l : List String) (k : Nat),
    (l.set k "").getD k "" = ""
  | [], _ => rfl
  | _ :: _, 0 => rfl
  | _ :: xs, (n+1) => getD_set_self_str xs n

theorem getD_set_ne_str : ∀ (l : List String) (k j : Nat), j ≠ k →
    (l.set k "").getD j "" = l.getD j ""
  | [], _, _, _ => rfl
  | _ :: _, 0, 0, h => absurd rfl h
  | _ :: _, 0, (_+1), _ => rfl
  | _ :: _, (_+1), 0, _ => rfl
  | _ :: xs, (k+1), (j+1), h =>
    getD_set_ne_str xs k j (fun hc => h (by rw [hc]))

theorem cellAt_blankStep_ne (k : Nat) (t : List (List String))
    (i j : Nat) (hj : j ≠ k) :
    cellAt (blankStep k t) i j = cellAt t i j := by
  unfold cellAt
  rw [List.getD_eq_getElem?_getD (blankStep k t) i,
      List.getD_eq_getElem?_getD t i]
  unfold blankStep
  rw [List.getElem?_mapIdx]
  cases ht : t[i]? with
  | none => rfl
  | some row =>
    simp only [Option.map_some', Option.getD_some]
    split
    · exact getD_set_ne_str row k j hj
    · rfl

theorem cellAt_blankStep_self (k : Nat) (t : List (List String)) (i : Nat) :
    cellAt (blankStep k t) i k
      = if 0 < i ∧ cellAt t (i-1) k = cellAt t i k
            ∧ ∀ j < k, cellAt t i j = ""
        then "" else cellAt t i k := by
  unfold cellAt
  rw [List.getD_eq_getElem?_getD (blankStep k t) i,
      List.getD_eq_getElem?_getD t i]
  unfold blankStep
  rw [List.getElem?_mapIdx]
  cases ht : t[i]? with
  | none => simp
  | some row =>
    simp only [Option.map_some', Option.getD_some]
    split
    · exact getD_set_self_str row k
    · rfl

theorem removeRedundancies_succ (m : Nat) (t : List (List String)) :
    removeRedundancies (m+1) t = blankStep m (removeRedundancies m t) := by
  unfold removeRedundancies
  rw [List.range_succ, List.foldl_append]
  rfl

theorem cellAt_removeRedundancies_of_le (t : List (List String)) :
    ∀ (m i k : Nat), m ≤ k →
      cellAt (removeRedundancies m t) i k = cellAt t i k := by
  intro m
  induction m with
  | zero => intro i k _; rfl
  | succ m ih =>
    intro i k hk
    rw [removeRedundancies_succ, cellAt_blankStep_ne m _ i k (by omega)]
    exact ih i k (by omega)

theorem cellAt_removeRedundancies_stable (t : List (List String)) :
    ∀ (m' m i k : Nat), m ≤ m' → k < m →
      cellAt (removeRedundancies m' t) i k
        = cellAt (removeRedundancies m t) i k := by
  intro m'
  induction m' with
  | zero =>
    intro m i k hm _
    have hz : m = 0 := Nat.le_zero.mp hm
    rw [hz]
  | succ m' ih =>
    intro m i k hm hk
    by_cases he : m = m' + 1
    · rw [he]
    · have hm' : m ≤ m' := by omega
      rw [removeRedundancies_succ,
          cellAt_blankStep_ne m' _ i k (by omega)]
      exact ih m i k hm' hk

/-- The cell-level contract of `remove_redundancies`: a processed column
cell is blanked exactly when it repeats the INPUT value of the row
directly above and every hierarchy column strictly to its left is blank
on the current OUTPUT row; otherwise it keeps the input value. -/
theorem removeRedundancies_cell_spec (n : Nat) (t : List (List String))
    (i k : Nat) (hk : k < n) :
    cellAt (removeRedundancies n t) i k
      = if 0 < i ∧ cellAt t (i-1) k = cellAt t i k
            ∧ ∀ j < k, cellAt (removeRedundancies n t) i j = ""
        then "" else cellAt t i k := by
  have h1 : cellAt (removeRedundancies n t) i k
      = cellAt (removeRedundancies (k+1) t) i k :=
    cellAt_removeRedundancies_stable t n (k+1) i k (by omega) (by omega)
  rw [h1, removeRedundancies_succ, cellAt_blankStep_self]
  have hc1 : cellAt (removeRedundancies k t) (i-1) k = cellAt t (i-1) k :=
    cellAt_removeRedundancies_of_le t k (i-1) k (Nat.le_refl k)
  have hc2 : cellAt (removeRedundancies k t) i k = cellAt t i k :=
    cellAt_removeRedundancies_of_le t k i k (Nat.le_refl k)
  have hc3 : (∀ j < k, cellAt (removeRedundancies k t) i j = "")
      ↔ (∀ j < k, cellAt (removeRedundancies n t) i j = "") := by
    constructor
    · intro h j hj
      rw [cellAt_removeRedundancies_stable t n k i j (by omega) hj]
      exact h j hj
    · intro h j hj
      rw [← cellAt_removeRedundancies_stable t n k i j (by omega) hj]
      exact h j hj
  rw [hc1, hc2]
  exact if_congr (and_congr Iff.rfl (and_congr Iff.rfl hc3)) rfl rfl

theorem length_blankStep (k : Nat) (t : List (List String)) :
    (blankStep k t).length = t.length := by
  unfold blankStep
  simp

theorem length_removeRedundancies (n : Nat) (t : List (List String)) :
    (removeRedundancies n t).length = t.length := by
  induction n with
  | zero => rfl
  | succ n ih => rw [removeRedundancies_succ, length_blankStep, ih]

theorem rowLength_blankStep (k : Nat) (t : List (List String)) (i : Nat) :
    ((blankStep k t).getD i []).length = (t.getD i []).length := by
  rw [List.getD_eq_getElem?_getD (blankStep k t) i,
      List.getD_eq_getElem?_getD t i]
  unfold blankStep
  rw [List.getElem?_mapIdx]
  cases ht : t[i]? with
  | none => rfl
  | some row =>
    simp only [Option.map_some', Option.getD_some]
    split
    · rw [List.length_set]
    · rfl

theorem rowLength_removeRedundancies (n : Nat) (t : List (List String))
    (i : Nat) :
    ((removeRedundancies n t).getD i []).length = (t.getD i []).length := by
  induction n with
  | zero => rfl
  | succ n ih => rw [removeRedundancies_succ, rowLength_blankStep, ih]

/-- Two tables with the same shape and the same cells are equal. -/
theorem table_ext {A B : List (List String)}
    (hlen : A.length = B.length)
    (hrow : ∀ i, (A.getD i []).length = (B.getD i []).length)
    (hcell : ∀ i j, cellAt A i j = cellAt B i j) : A = B := by
  apply List.ext_getElem?
  intro i
  by_cases hi : i < A.length
  · have hib : i < B.length := by omega
    rw [List.getElem?_eq_getElem hi, List.getElem?_eq_getElem hib]
    have hgA : A.getD i [] = A[i] := by
      rw [List.getD_eq_getElem?_getD, List.getElem?_eq_getElem hi]
      rfl
    have hgB : B.getD i [] = B[i] := by
      rw [List.getD_eq_getElem?_getD, List.getElem?_eq_getElem hib]
      rfl
    have hAB : A[i] = B[i] := by
      apply List.ext_getElem?
      intro j
      have hrl : (A[i] : List String).length = (B[i] : List String).length := by
        have := hrow i
        rw [hgA, hgB] at this
        exact this
      by_cases hj : j < (A[i] : List String).length
      · have hjb : j < (B[i] : List String).length := by omega
        rw [List.getElem?_eq_getElem hj, List.getElem?_eq_getElem hjb]
        have hcj := hcell i j
        unfold cellAt at hcj
        rw [hgA, hgB, List.getD_eq_getElem?_getD, List.getD_eq_getElem?_getD,
            List.getElem?_eq_getElem hj, List.getElem?_eq_getElem hjb] at hcj
        rw [show ((some (A[i][j] : String)).getD "") = A[i][j] from rfl,
            show ((some (B[i][j] : String)).getD "") = B[i][j] from rfl] at hcj
        rw [hcj]
      · have hjb : ¬ j < (B[i] : List String).length := by omega
        rw [List.getElem?_eq_none (by omega), List.getElem?_eq_none (by omega)]
    rw [hAB]
  · have hib : ¬ i < B.length := by omega
    rw [List.getElem?_eq_none (by omega), List.getElem?_eq_none (by omega)]

/-- `remove_redundancies` is idempotent: a second application blanks
nothing new, because any cell passing the blanking test on the collapsed
table was already blank. -/
theorem removeRedundancies_idem (n : Nat) (t : List (List String)) :
    removeRedundancies n (removeRedundancies n t)
      = removeRedundancies n t := by
  apply table_ext
  · rw [length_removeRedundancies]
  · intro i
    rw [rowLength_removeRedundancies]
  · intro i j
    induction j using Nat.strong_induction_on with
    | _ j ih =>
      by_cases hj : j < n
      · rw [removeRedundancies_cell_spec n (removeRedundancies n t) i j hj]
        by_cases hc0 : cellAt (removeRedundancies n t) i j = ""
        · rw [hc0]
          rw [ite_self]
        · have hCfalse : ¬ (0 < i ∧
              cellAt (removeRedundancies n t) (i-1) j
                = cellAt (removeRedundancies n t) i j ∧
              ∀ l < j,
                cellAt (removeRedundancies n (removeRedundancies n t)) i l
                  = "") := by
            rintro ⟨hi0, heq, hblank⟩
            have hspecA := removeRedundancies_cell_spec n t i j hj
            by_cases hCt : (0 < i ∧ cellAt t (i-1) j = cellAt t i j ∧
                ∀ l < j, cellAt (removeRedundancies n t) i l = "")
            · rw [if_pos hCt] at hspecA
              exact hc0 hspecA
            · rw [if_neg hCt] at hspecA
              apply hCt
              refine ⟨hi0, ?_, ?_⟩
              · have hspecA1 := removeRedundancies_cell_spec n t (i-1) j hj
                by_cases hCt1 : (0 < i-1 ∧
                    cellAt t (i-1-1) j = cellAt t (i-1) j ∧
                    ∀ l < j, cellAt (removeRedundancies n t) (i-1) l = "")
                · rw [if_pos hCt1] at hspecA1
                  rw [hspecA1] at heq
                  exact absurd heq.symm hc0
                · rw [if_neg hCt1] at hspecA1
                  rw [hspecA1, hspecA] at heq
                  exact heq
              · intro l hl
                rw [← ih l hl]
                exact hblank l hl
          rw [if_neg hCfalse]
      · rw [cellAt_removeRedundancies_of_le (removeRedundancies n t) n i j
              (by omega)]

/-- C4: `remove_redundancies` preserves the row count, every row length
(hence column order and row order), leaves the columns beyond the
hierarchy untouched, and blanks a hierarchy cell exactly when its input
value equals the same column value of the row directly above AND every
hierarchy column strictly to its left on the current output row is
already blank; every other cell keeps its input value. -/
theorem c4_remove_redundancies_spec (n : Nat) (t : List (List String)) :
    (removeRedundancies n t).length = t.length ∧
    (∀ i, ((removeRedundancies n t).getD i []).length
      = (t.getD i []).length) ∧
    (∀ i k, n ≤ k →
      cellAt (removeRedundancies n t) i k = cellAt t i k) ∧
    (∀ i k, k < n →
      cellAt (removeRedundancies n t) i k
        = if 0 < i ∧ cellAt t (i-1) k = cellAt t i k
              ∧ ∀ j < k, cellAt (removeRedundancies n t) i j = ""
          then "" else cellAt t i k) :=
  ⟨length_removeRedundancies n t,
   rowLength_removeRedundancies n t,
   fun i k hk => cellAt_removeRedundancies_of_le t n i k hk,
   fun i k hk => removeRedundancies_cell_spec n t i k hk⟩

/-- C5 (amended): `remove_redundancies` IS idempotent: re-applying it to
its own output returns the output unchanged, for every input table and
hierarchy length. -/
theorem c5_remove_redundancies_idempotent (n : Nat)
    (t : List (List String)) :
    removeRedundancies n (removeRedundancies n t)
      = removeRedundancies n t :=
  removeRedundancies_idem n t

/-- C5 counterexample: the claimed witness of non-idempotence cannot
exist — for no hierarchy length and no input table does a second
application differ from the first.  (A cell that survives the first pass
non-blank cannot satisfy the blanking test on the collapsed table:
its above-neighbour either kept the same input value, in which case the
first pass would have blanked the cell, or was blanked, in which case
the values differ.) -/
theorem c5_not_idempotent_counterexample :
    ¬ ∃ (n : Nat) (t : List (List String)),
      removeRedundancies n (removeRedundancies n t)
        ≠ removeRedundancies n t := by
  rintro ⟨n, t, hne⟩
  exact hne (removeRedundancies_idem n t)

/-! ### Lemmas about the classification views -/

theorem strLength_pos_iff (u : String) : 0 < u.length ↔ u ≠ "" := by
  cases u with
  | mk d =>
    show 0 < d.length ↔ _
    rw [List.length_pos]
    constructor
    · intro h he
      exact h (congrArg String.data he)
    · intro h h'
      subst h'
      exact h rfl

theorem sLenPos_iff (c : SCell) :
    sLenPos c = true ↔ ∃ u, c = SCell.str u ∧ u ≠ "" := by
  cases c with
  | str t =>
    unfold sLenPos
    rw [decide_eq_true_eq, strLength_pos_iff]
    constructor
    · intro h
      exact ⟨t, rfl, h⟩
    · rintro ⟨u, hu, h⟩
      injection hu with h'
      rw [h']
      exact h
  | numZero =>
    unfold sLenPos
    constructor
    · intro h
      exact absurd h (by simp)
    · rintro ⟨u, hu, _⟩
      exact absurd hu (by simp)

theorem sLenZero_iff (c : SCell) :
    sLenZero c = true ↔ c = SCell.str "" := by
  cases c with
  | str t =>
    unfold sLenZero
    rw [beq_iff_eq]
    constructor
    · intro h
      have ht : t = "" := by
        by_contra hne
        have := (strLength_pos_iff t).mpr hne
        omega
      rw [ht]
    · intro h
      injection h with h'
      rw [h']
      rfl
  | numZero =>
    unfold sLenZero
    constructor
    · intro h
      exact absurd h (by simp)
    · intro h
      exact absurd h (by simp)

theorem mem_matchRows_iff (self : List SelfRow) (others : List OtherRow)
    (r : MRow) :
    r ∈ matchRows self others ↔
      r ∈ mergedRows self others ∧ 0 < r.count ∧
        ∃ u, r.myExamples = SCell.str u ∧ u ≠ "" := by
  unfold matchRows
  rw [List.mem_filter, Bool.and_eq_true, decide_eq_true_eq, sLenPos_iff]
  try tauto

theorem mem_onlyMeRows_iff (self : List SelfRow) (others : List OtherRow)
    (r : MRow) :
    r ∈ onlyMeRows self others ↔
      r ∈ mergedRows self others ∧ r.count = 0 ∧
        ∃ u, r.myExamples = SCell.str u ∧ u ≠ "" := by
  unfold onlyMeRows
  rw [List.mem_filter, Bool.and_eq_true, beq_iff_eq, sLenPos_iff]
  try tauto

theorem mem_onlyOthersRows_iff (self : List SelfRow)
    (others : List OtherRow) (r : MRow) :
    r ∈ onlyOthersRows self others ↔
      r ∈ mergedRows self others ∧ 0 < r.count ∧
        r.myExamples = SCell.str "" := by
  unfold onlyOthersRows
  rw [List.mem_filter, Bool.and_eq_true, decide_eq_true_eq, sLenZero_iff]
  try tauto

theorem partitions_disjoint (self : List SelfRow) (others : List OtherRow)
    (r : MRow) :
    ¬ (r ∈ matchRows self others ∧ r ∈ onlyMeRows self others) ∧
    ¬ (r ∈ matchRows self others ∧ r ∈ onlyOthersRows self others) ∧
    ¬ (r ∈ onlyMeRows self others ∧ r ∈ onlyOthersRows self others) := by
  refine ⟨?_, ?_, ?_⟩
  · rintro ⟨h1, h2⟩
    rcases (mem_matchRows_iff self others r).mp h1 with ⟨_, hpos, _⟩
    rcases (mem_onlyMeRows_iff self others r).mp h2 with ⟨_, hzero, _⟩
    omega
  · rintro ⟨h1, h2⟩
    rcases (mem_matchRows_iff self others r).mp h1 with ⟨_, _, u, hu, hne⟩
    rcases (mem_onlyOthersRows_iff self others r).mp h2 with ⟨_, _, hz⟩
    rw [hz] at hu
    injection hu with h'
    exact hne h'.symm
  · rintro ⟨h1, h2⟩
    rcases (mem_onlyMeRows_iff self others r).mp h1 with ⟨_, hzero, _⟩
    rcases (mem_onlyOthersRows_iff self others r).mp h2 with ⟨_, hpos, _⟩
    omega

theorem countP_eq_length_of_mem {α : Type} {l : List α} {p : α → Bool}
    (h : ∀ o ∈ l, p o = true) : l.countP p = l.length := by
  induction l with
  | nil => rfl
  | cons a l ih =>
    rw [List.countP_cons, ih (fun o ho => h o (List.mem_cons_of_mem a ho)),
        h a (List.mem_cons_self a l), List.length_cons]
    simp

theorem countP_eq_zero_of_mem {α : Type} {l : List α} {p : α → Bool}
    (h : ∀ o ∈ l, p o = false) : l.countP p = 0 := by
  induction l with
  | nil => rfl
  | cons a l ih =>
    rw [List.countP_cons, ih (fun o ho => h o (List.mem_cons_of_mem a ho)),
        h a (List.mem_cons_self a l)]
    simp

theorem sum_map_ite_eq (B : SelfRow → Bool) (c : Nat) (l : List SelfRow) :
    (l.map (fun s => if B s = true then c else 0)).sum
      = l.countP B * c := by
  induction l with
  | nil => simp
  | cons a l ih =>
    rw [List.map_cons, List.sum_cons, ih, List.countP_cons]
    by_cases hB : B a = true
    · rw [if_pos hB, hB, if_pos rfl]
      ring
    · rw [if_neg hB, if_neg hB]
      simp

/-- The contribution of one self row to the quality-`q0` count of a
classification view: all of its fan-out rows when the row passes the
view predicate and carries quality `q0`, nothing otherwise. -/
theorem countP_fanOut_eq (others : List OtherRow) (q0 : String)
    (cellP : SCell → Bool) (s : SelfRow) :
    (fanOut others s).countP
        (fun x => x.quality == q0 &&
          (decide (0 < x.count) && cellP x.myExamples))
      = if (s.quality == q0 &&
            (decide (0 < countLookup others s.quality)
              && cellP (myCell s.comment))) = true
        then (others.filter (fun o => o.quality == q0)).length
        else 0 := by
  by_cases hB : (s.quality == q0 &&
      (decide (0 < countLookup others s.quality)
        && cellP (myCell s.comment))) = true
  · rw [if_pos hB]
    rcases (Bool.and_eq_true _ _).mp hB with ⟨hq, hrest⟩
    rcases (Bool.and_eq_true _ _).mp hrest with ⟨hpos, _⟩
    have h0 : 0 < countLookup others s.quality := of_decide_eq_true hpos
    rw [countLookup_eq] at h0
    have h0' : 0 < others.countP
        (fun o => o.quality == s.quality && o.comment.isSome) :=
      pos_of_wrapInt16_pos h0
    rcases List.countP_pos_iff.mp h0' with ⟨o, ho, hpo⟩
    have hof : o ∈ others.filter (fun o => o.quality == s.quality) :=
      List.mem_filter.mpr ⟨ho, ((Bool.and_eq_true _ _).mp hpo).1⟩
    have hne : ¬ (others.filter
        (fun o => o.quality == s.quality)).isEmpty = true := by
      intro hc
      rw [List.isEmpty_iff] at hc
      rw [hc] at hof
      exact absurd hof (List.not_mem_nil o)
    unfold fanOut
    rw [if_neg hne, List.countP_map]
    have hsq : s.quality = q0 := beq_iff_eq.mp hq
    rw [← hsq]
    rw [← hsq] at hB
    exact countP_eq_length_of_mem (fun o _ => hB)
  · rw [if_neg hB]
    have hBf : (s.quality == q0 &&
        (decide (0 < countLookup others s.quality)
          && cellP (myCell s.comment))) = false :=
      Bool.eq_false_iff.mpr hB
    unfold fanOut
    by_cases he : (others.filter
        (fun o => o.quality == s.quality)).isEmpty = true
    · rw [if_pos he]
      exact countP_eq_zero_of_mem (fun o ho => by
        rw [List.mem_singleton.mp ho]
        exact hBf)
    · rw [if_neg he, List.countP_map]
      exact countP_eq_zero_of_mem (fun o _ => hBf)

/-- On an accepted engine whose others table has no null comment, every
row of a classification view selected by a positive count and a cell
predicate false on the numeric fill carries a count equal to the number
of view rows sharing its quality. -/
theorem partition_count_eq {self : List SelfRow} {others : List OtherRow}
    (h1 : constructionOk self others = true)
    (h2 : ∀ o ∈ others, o.comment.isSome = true)
    (hsize : others.length < 32768)
    (cellP : SCell → Bool) (hnum : cellP SCell.numZero = false) :
    ∀ r ∈ (mergedRows self others).filter
        (fun x => decide (0 < x.count) && cellP x.myExamples),
      r.count = (((mergedRows self others).filter
        (fun x => decide (0 < x.count) && cellP x.myExamples)).countP
          (fun x => x.quality == r.quality) : Int) := by
  intro r hr
  rcases List.mem_filter.mp hr with ⟨hrm, hrP⟩
  rcases (Bool.and_eq_true _ _).mp hrP with ⟨hrpos, hrcell⟩
  have hrpos' : 0 < r.count := of_decide_eq_true hrpos
  rcases mem_mergedRows.mp hrm with ⟨sstar, hsstar, r0, hr0, hrfill⟩
  rcases fanOut_fields hr0 with ⟨hq0, hm0, hc0⟩
  have hrq : r.quality = sstar.quality := by
    rw [hrfill]
    exact ((fillEmpty_fields r0).1).trans hq0
  have hrc : r.count = countLookup others sstar.quality := by
    rw [hrfill]
    exact ((fillEmpty_fields r0).2.2).trans hc0
  have hrm0 : r.myExamples = myCell sstar.comment := by
    rw [hrfill]
    exact ((fillEmpty_fields r0).2.1).trans hm0
  have hBstar : (sstar.quality == r.quality &&
      (decide (0 < countLookup others sstar.quality)
        && cellP (myCell sstar.comment))) = true := by
    refine (Bool.and_eq_true _ _).mpr ⟨beq_iff_eq.mpr hrq.symm,
      (Bool.and_eq_true _ _).mpr ⟨decide_eq_true (hrc ▸ hrpos'), ?_⟩⟩
    rw [← hrm0]
    exact hrcell
  have hle1 : self.countP (fun s => s.quality == r.quality &&
      (decide (0 < countLookup others s.quality)
        && cellP (myCell s.comment))) ≤ 1 := by
    have hmono : self.countP (fun s => s.quality == r.quality &&
        (decide (0 < countLookup others s.quality)
          && cellP (myCell s.comment)))
        ≤ self.countP (fun s => s.quality == r.quality
            && s.comment.isSome) := by
      apply List.countP_mono_left
      intro s _ hs
      rcases (Bool.and_eq_true _ _).mp hs with ⟨hsq, hsrest⟩
      rcases (Bool.and_eq_true _ _).mp hsrest with ⟨_, hscell⟩
      refine (Bool.and_eq_true _ _).mpr ⟨hsq, ?_⟩
      cases hcm : s.comment with
      | none =>
        rw [hcm] at hscell
        rw [show myCell none = SCell.numZero from rfl] at hscell
        rw [hnum] at hscell
        exact absurd hscell (by simp)
      | some u => rfl
    exact le_trans hmono (accepted_dup_bound h1 r.quality)
  have hge1 : 0 < self.countP (fun s => s.quality == r.quality &&
      (decide (0 < countLookup others s.quality)
        && cellP (myCell s.comment))) :=
    List.countP_pos_iff.mpr ⟨sstar, hsstar, hBstar⟩
  have hcp1 : self.countP (fun s => s.quality == r.quality &&
      (decide (0 < countLookup others s.quality)
        && cellP (myCell s.comment))) = 1 := by
    omega
  have hchain : ((mergedRows self others).filter
      (fun x => decide (0 < x.count) && cellP x.myExamples)).countP
        (fun x => x.quality == r.quality)
      = self.countP (fun s => s.quality == r.quality &&
          (decide (0 < countLookup others s.quality)
            && cellP (myCell s.comment)))
        * (others.filter (fun o => o.quality == r.quality)).length := by
    rw [List.countP_filter]
    rw [(mergedRows_perm self others).countP_eq]
    rw [List.countP_map]
    have hfm : mergedRaw self others = (self.map (fanOut others)).flatten :=
      rfl
    rw [hfm, List.countP_flatten, List.map_map]
    have h5 : (self.map ((List.countP
        ((fun x : MRow => x.quality == r.quality &&
          (decide (0 < x.count) && cellP x.myExamples)) ∘ fillEmpty))
          ∘ fanOut others)).sum
        = (self.map (fun s => if (s.quality == r.quality &&
            (decide (0 < countLookup others s.quality)
              && cellP (myCell s.comment))) = true
            then (others.filter (fun o => o.quality == r.quality)).length
            else 0)).sum := by
      congr 1
      apply List.map_congr_left
      intro s _
      exact countP_fanOut_eq others r.quality cellP s
    rw [h5, sum_map_ite_eq]
  have h6 : others.countP
      (fun o => o.quality == r.quality && o.comment.isSome)
      = others.countP (fun o => o.quality == r.quality) := by
    apply List.countP_congr
    intro o ho
    constructor
    · intro hx
      exact ((Bool.and_eq_true _ _).mp hx).1
    · intro hx
      exact (Bool.and_eq_true _ _).mpr ⟨hx, h2 o ho⟩
  have h7 : others.countP (fun o => o.quality == r.quality)
      = (others.filter (fun o => o.quality == r.quality)).length := by
    rw [List.countP_eq_length_filter]
  rw [hchain, hcp1, Nat.one_mul, ← h7, ← h6]
  rw [hrc, ← hrq, countLookup_eq_small hsize]

/-- C3 (amended): the three classification views select exactly the
merged rows with (count > 0, non-empty string self comment), (count = 0,
non-empty string self comment) and (count > 0, empty-string self
comment) respectively, and they are pairwise disjoint — both
unconditionally; and, provided construction accepted the input, every
others-table comment is present (non-null) and the others table has
fewer than 2^15 rows (so the int16 cast cannot wrap), every row of
`match_dataframe` / `only_others_dataframe` has a count equal to the
number of rows sharing its quality inside that view.  (With a null
others comment the count falls below the fan-out multiplicity and the
equality fails, see the counterexample.) -/
theorem c3_classification_views (self : List SelfRow)
    (others : List OtherRow) :
    (∀ r, r ∈ matchRows self others ↔
      r ∈ mergedRows self others ∧ 0 < r.count ∧
        ∃ u, r.myExamples = SCell.str u ∧ u ≠ "") ∧
    (∀ r, r ∈ onlyMeRows self others ↔
      r ∈ mergedRows self others ∧ r.count = 0 ∧
        ∃ u, r.myExamples = SCell.str u ∧ u ≠ "") ∧
    (∀ r, r ∈ onlyOthersRows self others ↔
      r ∈ mergedRows self others ∧ 0 < r.count ∧
        r.myExamples = SCell.str "") ∧
    (∀ r, ¬ (r ∈ matchRows self others ∧ r ∈ onlyMeRows self others) ∧
          ¬ (r ∈ matchRows self others ∧ r ∈ onlyOthersRows self others) ∧
          ¬ (r ∈ onlyMeRows self others ∧ r ∈ onlyOthersRows self others)) ∧
    (constructionOk self others = true →
     (∀ o ∈ others, o.comment.isSome = true) →
     others.length < 32768 →
      (∀ r ∈ matchRows self others,
        r.count = ((matchRows self others).countP
          (fun x => x.quality == r.quality) : Int)) ∧
      (∀ r ∈ onlyOthersRows self others,
        r.count = ((onlyOthersRows self others).countP
          (fun x => x.quality == r.quality) : Int))) :=
  ⟨mem_matchRows_iff self others, mem_onlyMeRows_iff self others,
    mem_onlyOthersRows_iff self others, partitions_disjoint self others,
    fun h1 h2 h3 => ⟨partition_count_eq h1 h2 h3 sLenPos rfl,
      partition_count_eq h1 h2 h3 sLenZero rfl⟩⟩

/-- C3 counterexample: one self row `a` with comment and two others rows
for `a`, one of them with a null comment.  Construction accepts the
input; `match_dataframe` holds both fan-out rows of quality `a`, yet
each carries count 1 (only the non-null comment was counted), so the
count does not equal the number of rows sharing the quality inside the
view. -/
theorem c3_count_counterexample :
    constructionOk [⟨"a", some "x"⟩]
      [⟨"a", some "c", "r"⟩, ⟨"a", none, "s"⟩] = true ∧
    matchRows [⟨"a", some "x"⟩] [⟨"a", some "c", "r"⟩, ⟨"a", none, "s"⟩]
      = [⟨"a", SCell.str "x", 1, some "r", some "c"⟩,
         ⟨"a", SCell.str "x", 1, some "s", some ""⟩] ∧
    ¬ (∀ r ∈ matchRows [⟨"a", some "x"⟩]
          [⟨"a", some "c", "r"⟩, ⟨"a", none, "s"⟩],
        r.count = ((matchRows [⟨"a", some "x"⟩]
          [⟨"a", some "c", "r"⟩, ⟨"a", none, "s"⟩]).countP
            (fun x => x.quality == r.quality) : Int)) := by
  have hm : matchRows [⟨"a", some "x"⟩]
      [⟨"a", some "c", "r"⟩, ⟨"a", none, "s"⟩]
      = [⟨"a", SCell.str "x", 1, some "r", some "c"⟩,
         ⟨"a", SCell.str "x", 1, some "s", some ""⟩] := by
    unfold matchRows
    rw [mergedRows_eq_of_sorted (by decide)]
    decide
  refine ⟨by decide, hm, ?_⟩
  rw [hm]
  decide

end FeedbackSummary
